import Mathlib

/-!
# Verification of the genshin-db-serve request gateway

A shallow embedding of `src/index.ts`: the language directory, the URL
resolver (`parseURL`), the upstream URL builder (`getGitHubURL`) and the
request handler (`fetch`), together with models of the external
capabilities the worker consumes (URL parsing, HTTP fetch, gzip, and the
JSON codec `JSON.parse` / `JSON.stringify`).

Strings are modelled with Lean `String` / `List Char`; JavaScript
`undefined` / `null` values are modelled with `Option`; a thrown
JavaScript exception is modelled as the `Except.error` branch.
`String.prototype.toLowerCase` is modelled for ASCII input
(`Char.toLower`), which covers every token of the language directory and
the locale table.
-/

namespace GenshinDBServe

/-- The `languages` table of `src/index.ts`: canonical lowercase language
key paired with the display-cased form used in upstream paths.
In the source this is an object literal; here it is an association list
whose key order matches the source. -/
def languagesDir : List (String × String) :=
  [("chinesesimplified", "ChineseSimplified"),
   ("chinesetraditional", "ChineseTraditional"),
   ("english", "English"),
   ("french", "French"),
   ("german", "German"),
   ("indonesian", "Indonesian"),
   ("italian", "Italian"),
   ("japanese", "Japanese"),
   ("korean", "Korean"),
   ("portuguese", "Portuguese"),
   ("russian", "Russian"),
   ("spanish", "Spanish"),
   ("thai", "Thai"),
   ("turkish", "Turkish"),
   ("vietnamese", "Vietnamese")]

/-- The `localeMap` table of `src/index.ts`: locale alias to canonical
language key. -/
def localeMap : List (String × String) :=
  [("chs", "chinesesimplified"),
   ("cht", "chinesetraditional"),
   ("zh-cn", "chinesesimplified"),
   ("zh-tw", "chinesetraditional"),
   ("de", "german"),
   ("en", "english"),
   ("es", "spanish"),
   ("fr", "french"),
   ("id", "indonesian"),
   ("it", "italian"),
   ("ja", "japanese"),
   ("ko", "korean"),
   ("pt", "portuguese"),
   ("ru", "russian"),
   ("th", "thai"),
   ("tr", "turkish"),
   ("vi", "vietnamese"),
   ("jp", "japanese"),
   ("kr", "korean")]

/-- `const lowercaseLanguages = Object.keys(languages)`. -/
def lowercaseLanguages : List String := languagesDir.map Prod.fst

/-- The `folders` list of `src/index.ts` (category names shown in the
help payload; the resolver itself never validates against it). -/
def folders : List String :=
  ["characters", "talents", "constellations",
   "weapons",
   "foods", "materials", "crafts",
   "artifacts", "domains", "enemies",
   "rarity", "elements",
   "achievements", "achievementgroups",
   "windgliders", "outfits", "animals", "namecards", "geographies",
   "adventureranks",
   "emojis", "voiceovers",
   "tcgactioncards", "tcgcardbacks", "tcgcardboxes", "tcgcharactercards",
   "tcgdetailedrules", "tcgenemycards", "tcgkeywords", "tcglevelrewards",
   "tcgstatuseffects", "tcgsummons"]

/-- `value.toLowerCase()`, modelled for ASCII via `Char.toLower`. -/
def lowerStr (s : String) : String := ⟨s.data.map Char.toLower⟩

/-- `getLanguage` from `src/index.ts`.

```ts
const getLanguage = (value?: string | null): Language | undefined => {
  if (!value) { return undefined; }
  const lowercaseVal = value.toLowerCase();
  if (lowercaseLanguages.includes(lowercaseVal)) {
    return value as Language;          // note: returns `value`, not `lowercaseVal`
  }
  if (localeMap[lowercaseVal]) { return localeMap[lowercaseVal]; }
  return undefined;
};
```

`none` models `undefined`/`null`; the `!value` test is also true for the
empty string. -/
def getLanguage (value : Option String) : Option String :=
  match value with
  | none => none
  | some v =>
    if v = "" then none
    else
      let lowercaseVal := lowerStr v
      if lowercaseLanguages.contains lowercaseVal then
        some v
      else
        localeMap.lookup lowercaseVal

/-- The `ParsedURL` interface of `src/index.ts`. `category` is typed
`string` in the source but is `undefined` at runtime when the first
segment is a language and no second segment exists, so it is an
`Option String` here. -/
structure ParsedURL where
  language : String
  category : Option String
  id : String
  branch : String
deriving Repr, DecidableEq

/-- A thrown JavaScript exception: either the worker's own
`InvalidURLError` (with its message) or any other error (network,
gunzip, JSON parse, ...). -/
inductive JSError where
  | invalidURL (message : String)
  | other (message : String)
deriving Repr, DecidableEq

deriving instance DecidableEq for Except

/-- The parsed form of a request URL, as produced by the external `URL`
class: the `pathname` and the ordered `searchParams` pairs. -/
structure URLParts where
  pathname : List Char
  searchParams : List (String × String)

/-- `searchParams.get(k)`: first value bound to `k`, or `null` (an
empty-valued parameter yields the empty string, not `null`). -/
def getParam (ps : List (String × String)) (k : String) : Option String :=
  (ps.find? (fun kv => kv.1 = k)).map Prod.snd

/-- `String.prototype.split('/')` on the pathname's characters. -/
def splitSegs : List Char → List (List Char)
  | [] => [[]]
  | c :: cs =>
    if c = '/' then [] :: splitSegs cs
    else
      match splitSegs cs with
      | [] => [[c]]
      | s :: rest => (c :: s) :: rest

/-- `pathname.split('/').filter((part) => part !== '')`. -/
def pathSegs (p : List Char) : List String :=
  ((splitSegs p).filter (fun s => s ≠ [])).map (fun s => (⟨s⟩ : String))

/-- The nullish-coalescing operator `a ?? b` on string-or-null
values. -/
def orElseJS (a b : Option String) : Option String :=
  match a with
  | some v => some v
  | none => b

/-- The body of `parseURL` after the destructuring
`const [first, second, third] = pathname.split('/').filter(...)`:
steps on the three optional leading segments and the query pairs. -/
def parseCore (first second third : Option String)
    (q : List (String × String)) : Except JSError ParsedURL :=
  match first with
  | none => .error (.invalidURL "Invalid URL Format")
  | some first =>
    let queryLang : Option String :=
      orElseJS (getParam q "lang") (getParam q "language")
    let branch := (getParam q "branch").getD "main"
    let r : String × Option String × Option String :=
      match getLanguage (some first) with
      | some l => (l, second, third)
      | none => ("english", some first, second)
    let id := r.2.2.getD "index"
    let language : String :=
      match getLanguage queryLang with
      | some l => l
      | none => r.1
    if lowercaseLanguages.contains language then
      .ok ⟨language, r.2.1, id, branch⟩
    else
      .error (.invalidURL "Invalid Language")

/-- `parseURL` from `src/index.ts`: resolve a request URL into a
`ParsedURL`, or throw `InvalidURLError`. -/
def parseURL (u : URLParts) : Except JSError ParsedURL :=
  let segs := pathSegs u.pathname
  parseCore (segs.get? 0) (segs.get? 1) (segs.get? 2) u.searchParams

/-- A JavaScript template interpolation `${x}` where `x` may be
`undefined`. -/
def tmpl (o : Option String) : String := o.getD "undefined"

/-- `getGitHubURL` from `src/index.ts`: the pure upstream URL builder.
`languages[language]` is an object lookup that yields `undefined` (hence
the text `undefined` under template interpolation) off the key set. -/
def getGitHubURL (p : ParsedURL) : String :=
  if p.id = "all" then
    "https://raw.githubusercontent.com/theBowja/genshin-db-dist/refs/heads/"
      ++ p.branch ++ "/data/gzips/" ++ p.language ++ "-" ++ tmpl p.category
      ++ ".min.json.gzip"
  else if p.id = "index" then
    "https://raw.githubusercontent.com/theBowja/genshin-db/refs/heads/"
      ++ p.branch ++ "/src/data/index/" ++ tmpl (languagesDir.lookup p.language)
      ++ "/" ++ tmpl p.category ++ ".json"
  else
    "https://raw.githubusercontent.com/theBowja/genshin-db/refs/heads/"
      ++ p.branch ++ "/src/data/" ++ tmpl (languagesDir.lookup p.language)
      ++ "/" ++ tmpl p.category ++ "/" ++ p.id ++ ".json"

/-! ## The JSON codec

`JSON.parse` and `JSON.stringify` are external runtime capabilities
(spec §6); they are modelled here over an inductive JSON value type.
Numbers are modelled as integers (the data relayed by the worker is not
interpreted, so the fractional/exponent forms are out of the model's
scope), and `toLowerCase`-style unicode subtleties do not arise because
serialization is character-faithful. -/

/-- A JSON document. Object members keep their textual order. -/
inductive Json where
  | null : Json
  | bool (b : Bool) : Json
  | num (n : Int) : Json
  | str (s : String) : Json
  | arr (elems : List Json) : Json
  | obj (members : List (String × Json)) : Json
deriving Repr

/-- The opening brace character, `\x7b`. -/
def lbrace : Char := Char.ofNat 123

/-- The closing brace character, `\x7d`. -/
def rbrace : Char := Char.ofNat 125

/-- Decimal digit character for `n < 10`. -/
def digitChar (n : Nat) : Char :=
  if n = 0 then '0' else if n = 1 then '1' else if n = 2 then '2'
  else if n = 3 then '3' else if n = 4 then '4' else if n = 5 then '5'
  else if n = 6 then '6' else if n = 7 then '7' else if n = 8 then '8'
  else '9'

/-- Lowercase hexadecimal digit character for `n < 16`. -/
def hexDigitChar (n : Nat) : Char :=
  if n < 10 then digitChar n
  else if n = 10 then 'a' else if n = 11 then 'b' else if n = 12 then 'c'
  else if n = 13 then 'd' else if n = 14 then 'e' else 'f'

/-- Decimal digits of a natural number, most significant first. -/
def natToChars (n : Nat) : List Char :=
  if _h : n < 10 then [digitChar n]
  else natToChars (n / 10) ++ [digitChar (n % 10)]
termination_by n
decreasing_by exact Nat.div_lt_self (by omega) (by omega)

/-- `String(n)` for an integer JavaScript number. -/
def intToChars (i : Int) : List Char :=
  if i < 0 then '-' :: natToChars i.natAbs else natToChars i.toNat

/-- `JSON.stringify`'s escaping of one string character: the common
short escapes, `\u00xx` for the remaining control characters, and the
character itself otherwise. -/
def escChar (c : Char) : List Char :=
  if c = '"' then ['\\', '"']
  else if c = '\\' then ['\\', '\\']
  else if c = '\n' then ['\\', 'n']
  else if c = '\t' then ['\\', 't']
  else if c = '\r' then ['\\', 'r']
  else if c.toNat = 8 then ['\\', 'b']
  else if c.toNat = 12 then ['\\', 'f']
  else if c.toNat < 32 then
    ['\\', 'u', '0', '0', hexDigitChar (c.toNat / 16), hexDigitChar (c.toNat % 16)]
  else [c]

/-- A JSON string literal: quote, escaped characters, quote. -/
def quoteChars (s : List Char) : List Char :=
  '"' :: s.flatMap escChar ++ ['"']

/-- The indentation in force at nesting depth `d` when stringifying with
a 2-space gap. -/
def indentChars (d : Nat) : List Char := List.replicate (2 * d) ' '

mutual

/-- `JSON.stringify(v, null, 2)` at nesting depth `d`. -/
def emitVal : Json → Nat → List Char
  | .null, _ => ['n', 'u', 'l', 'l']
  | .bool true, _ => ['t', 'r', 'u', 'e']
  | .bool false, _ => ['f', 'a', 'l', 's', 'e']
  | .num i, _ => intToChars i
  | .str s, _ => quoteChars s.data
  | .arr [], _ => ['[', ']']
  | .arr (x :: xs), d =>
    '[' :: '\n' :: (indentChars (d + 1) ++ emitVal x (d + 1)
      ++ emitArrRest xs (d + 1) ++ '\n' :: (indentChars d ++ [']']))
  | .obj [], _ => [lbrace, rbrace]
  | .obj (m :: ms), d =>
    lbrace :: '\n' :: (indentChars (d + 1) ++ emitMember m (d + 1)
      ++ emitObjRest ms (d + 1) ++ '\n' :: (indentChars d ++ [rbrace]))

/-- The `, element` continuation of a stringified non-empty array. -/
def emitArrRest : List Json → Nat → List Char
  | [], _ => []
  | x :: xs, d =>
    ',' :: '\n' :: (indentChars d ++ emitVal x d ++ emitArrRest xs d)

/-- One `"key": value` member of a stringified object. -/
def emitMember : String × Json → Nat → List Char
  | (k, v), d => quoteChars k.data ++ ':' :: ' ' :: emitVal v d

/-- The `, "key": value` continuation of a stringified non-empty
object. -/
def emitObjRest : List (String × Json) → Nat → List Char
  | [], _ => []
  | m :: ms, d =>
    ',' :: '\n' :: (indentChars d ++ emitMember m d ++ emitObjRest ms d)

end

/-- `JSON.stringify(v, null, 2)`. -/
def jsonStringify2 (v : Json) : String := ⟨emitVal v 0⟩

/-- JSON insignificant whitespace. -/
def isWsB (c : Char) : Bool :=
  c = ' ' || c = '\n' || c = '\t' || c = '\r'

/-- Drop leading JSON whitespace. -/
def skipWs : List Char → List Char
  | [] => []
  | c :: cs => if isWsB c then skipWs cs else c :: cs

/-- ASCII decimal digit test. -/
def isDigitB (c : Char) : Bool := 48 ≤ c.toNat && c.toNat ≤ 57

/-- Accumulate a maximal run of decimal digits. -/
def parseDigits : List Char → Nat → Nat × List Char
  | [], acc => (acc, [])
  | c :: cs, acc =>
    if isDigitB c then parseDigits cs (acc * 10 + (c.toNat - 48))
    else (acc, c :: cs)

/-- Parse a non-empty digit run as a natural number. -/
def parseNatNum (input : List Char) : Option (Nat × List Char) :=
  match input with
  | [] => none
  | c :: _ =>
    if isDigitB c then some (parseDigits input 0) else none

/-- Parse an (integer) JSON number literal. -/
def parseNum (input : List Char) : Option (Int × List Char) :=
  match input with
  | [] => none
  | c :: cs =>
    if c = '-' then
      match parseNatNum cs with
      | some (n, r) => some (-(n : Int), r)
      | none => none
    else
      match parseNatNum input with
      | some (n, r) => some ((n : Int), r)
      | none => none

/-- Hexadecimal digit test. -/
def isHexB (c : Char) : Bool :=
  isDigitB c || (97 ≤ c.toNat && c.toNat ≤ 102) || (65 ≤ c.toNat && c.toNat ≤ 70)

/-- Value of a hexadecimal digit character. -/
def hexVal (c : Char) : Nat :=
  if c.toNat ≤ 57 then c.toNat - 48
  else if 97 ≤ c.toNat then c.toNat - 87
  else c.toNat - 55

/-- Prepend a character to the string being accumulated by
`parseStringBody`. -/
def consFst (c : Char) : Option (List Char × List Char) →
    Option (List Char × List Char)
  | some (s, r) => some (c :: s, r)
  | none => none

/-- Parse the body of a JSON string literal (after the opening quote)
up to and including the closing quote, undoing escapes. -/
def parseStringBody : List Char → Option (List Char × List Char)
  | [] => none
  | c :: cs =>
    if c = '"' then some ([], cs)
    else if c = '\\' then
      match cs with
      | [] => none
      | e :: cs1 =>
        if e = '"' then consFst '"' (parseStringBody cs1)
        else if e = '\\' then consFst '\\' (parseStringBody cs1)
        else if e = '/' then consFst '/' (parseStringBody cs1)
        else if e = 'n' then consFst '\n' (parseStringBody cs1)
        else if e = 't' then consFst '\t' (parseStringBody cs1)
        else if e = 'r' then consFst '\r' (parseStringBody cs1)
        else if e = 'b' then consFst (Char.ofNat 8) (parseStringBody cs1)
        else if e = 'f' then consFst (Char.ofNat 12) (parseStringBody cs1)
        else if e = 'u' then
          match cs1 with
          | h1 :: h2 :: h3 :: h4 :: cs2 =>
            if isHexB h1 && isHexB h2 && isHexB h3 && isHexB h4 then
              consFst
                (Char.ofNat
                  (hexVal h1 * 4096 + hexVal h2 * 256 + hexVal h3 * 16 + hexVal h4))
                (parseStringBody cs2)
            else none
          | _ => none
        else none
    else if c.toNat < 32 then none
    else consFst c (parseStringBody cs)

/-- Expect an exact run of characters. -/
def stripChars : List Char → List Char → Option (List Char)
  | [], input => some input
  | _ :: _, [] => none
  | p :: ps, c :: cs => if c = p then stripChars ps cs else none

mutual

/-- Recursive-descent JSON value parser (fuel-indexed; the fuel strictly
decreases on every recursive call, and `jsonParse` supplies more fuel
than any document that fits in the input can consume). Expects its
input to start at a non-whitespace character. -/
def parseVal : Nat → List Char → Option (Json × List Char)
  | 0, _ => none
  | Nat.succ fuel, input =>
    match input with
    | [] => none
    | c :: rest =>
      if c = 'n' then
        match stripChars ['u', 'l', 'l'] rest with
        | some r => some (.null, r)
        | none => none
      else if c = 't' then
        match stripChars ['r', 'u', 'e'] rest with
        | some r => some (.bool true, r)
        | none => none
      else if c = 'f' then
        match stripChars ['a', 'l', 's', 'e'] rest with
        | some r => some (.bool false, r)
        | none => none
      else if c = '"' then
        match parseStringBody rest with
        | some (s, r) => some (.str ⟨s⟩, r)
        | none => none
      else if c = '[' then
        match skipWs rest with
        | [] => none
        | c1 :: r1 =>
          if c1 = ']' then some (.arr [], r1)
          else
            match parseVal fuel (c1 :: r1) with
            | some (x, r2) =>
              match parseArrRest fuel r2 with
              | some (xs, r3) => some (.arr (x :: xs), r3)
              | none => none
            | none => none
      else if c = lbrace then
        match skipWs rest with
        | [] => none
        | c1 :: r1 =>
          if c1 = rbrace then some (.obj [], r1)
          else
            match parseMember fuel (c1 :: r1) with
            | some (m, r2) =>
              match parseObjRest fuel r2 with
              | some (ms, r3) => some (.obj (m :: ms), r3)
              | none => none
            | none => none
      else
        match parseNum (c :: rest) with
        | some (i, r) => some (.num i, r)
        | none => none

/-- Parse one `"key": value` object member. -/
def parseMember : Nat → List Char → Option ((String × Json) × List Char)
  | 0, _ => none
  | Nat.succ fuel, input =>
    match input with
    | [] => none
    | c :: rest =>
      if c = '"' then
        match parseStringBody rest with
        | some (k, r1) =>
          match skipWs r1 with
          | [] => none
          | c2 :: r2 =>
            if c2 = ':' then
              match parseVal fuel (skipWs r2) with
              | some (v, r3) => some (((⟨k⟩ : String), v), r3)
              | none => none
            else none
        | none => none
      else none

/-- Parse the `, element ... ]` continuation of an array. -/
def parseArrRest : Nat → List Char → Option (List Json × List Char)
  | 0, _ => none
  | Nat.succ fuel, input =>
    match skipWs input with
    | [] => none
    | c :: rest =>
      if c = ']' then some ([], rest)
      else if c = ',' then
        match parseVal fuel (skipWs rest) with
        | some (x, r1) =>
          match parseArrRest fuel r1 with
          | some (xs, r2) => some (x :: xs, r2)
          | none => none
        | none => none
      else none

/-- Parse the `, "key": value ... \x7d` continuation of an object. -/
def parseObjRest : Nat → List Char → Option (List (String × Json) × List Char)
  | 0, _ => none
  | Nat.succ fuel, input =>
    match skipWs input with
    | [] => none
    | c :: rest =>
      if c = rbrace then some ([], rest)
      else if c = ',' then
        match parseMember fuel (skipWs rest) with
        | some (m, r1) =>
          match parseObjRest fuel r1 with
          | some (ms, r2) => some (m :: ms, r2)
          | none => none
        | none => none
      else none

end

/-- `JSON.parse`: parse a complete document, allowing surrounding
whitespace and rejecting trailing garbage. -/
def jsonParse (s : String) : Option Json :=
  match parseVal (s.data.length + 1) (skipWs s.data) with
  | some (v, rest) => if skipWs rest = [] then some v else none
  | none => none

/-! ## The request handler -/

/-- The `examples` array of `notFoundData`. -/
def helpExamples : List String :=
  ["https://data.genshin.pw/artifacts",
   "https://data.genshin.pw/japanese/artifacts",
   "https://data.genshin.pw/artifacts/index",
   "https://data.genshin.pw/artifacts/all",
   "https://data.genshin.pw/artifacts/adventurer",
   "https://data.genshin.pw/english/artifacts/adventurer",
   "https://data.genshin.pw/artifacts/adventurer?lang=japanese",
   "https://data.genshin.pw/artifacts/adventurer?branch=v4"]

/-- The static `notFoundData` help payload of `src/index.ts` as a JSON
value: languages, locale aliases, folders and example URLs. -/
def notFoundDataJson : Json :=
  .obj [("languages", .arr (lowercaseLanguages.map .str)),
        ("locales", .obj (localeMap.map (fun kv => (kv.1, Json.str kv.2)))),
        ("folders", .arr (folders.map .str)),
        ("examples", .arr (helpExamples.map .str))]

/-- `` `<li>${s}</li>` ``. -/
def htmlLi (s : String) : String := "<li>" ++ s ++ "</li>"

/-- The `helpHtml` template literal of `src/index.ts`, with its three
`.map(...).join('\n')` interpolations. -/
def helpHtml : String :=
  "\n<!DOCTYPE html>\n<html lang=\"en\">\n<head>\n\t<meta charset=\"UTF-8\">\n\t<meta name=\"viewport\" content=\"width=device-width, initial-scale=1.0\">\n\t<title>404 Not Found</title>\n</head>\n<body>\n\t<h1>404 Not Found</h1>\n\t<h2>Available Folders</h2>\n\t<ul>\n\t\t"
  ++ String.intercalate "\n" (folders.map htmlLi)
  ++ "\n\t</ul>\n\t<h2>Available Languages</h2>\n\t<ul>\n\t\t"
  ++ String.intercalate "\n" (lowercaseLanguages.map htmlLi)
  ++ "\n\t</ul>\n\t<h2>Available Locales</h2>\n\t<ul>\n\t\t"
  ++ String.intercalate "\n"
      (localeMap.map (fun kv => htmlLi (kv.1 ++ " - " ++ kv.2)))
  ++ "\n\t</ul>\n\n\t<h2>Examples</h2>\n\t<ul>\n\t\t"
  ++ String.intercalate "\n" (helpExamples.map htmlLi)
  ++ "\n\t</ul>\n</body>\n</html>"

/-- An outbound `Response`: its status, the `Content-Type` header it was
constructed with (if any), and its body text. `new Response(body)`
defaults the status to 200. -/
structure ResponseModel where
  status : Nat
  contentType : Option String
  body : String
deriving Repr, DecidableEq

/-- `JSON.stringify({ error: `Error: ...`, help: notFoundData }, null, 2)`:
the JSON error body shared by the 400 and 500 branches. -/
def errorHelpBody (msg : String) : String :=
  jsonStringify2
    (.obj [("error", .str ("Error: " ++ msg)), ("help", notFoundDataJson)])

/-- The two `catch (err)` blocks of the handler: `InvalidURLError`
renders as a 400 JSON error+help body, anything else as a 500 one
(`getErrorMessage` extracts the message). -/
def renderCaught (e : JSError) : ResponseModel :=
  match e with
  | .invalidURL m => ⟨400, some "application/json", errorHelpBody m⟩
  | .other m => ⟨500, some "application/json", errorHelpBody m⟩

/-- The outcome of `await fetch(gitHubURL)`: a rejected promise, a
response with a non-success status (`!response.ok`), or a successful
response carrying its raw body. -/
inductive FetchOutcome where
  | failure (message : String)
  | notOk
  | okBody (body : String)

/-- The external capabilities consumed per request: the outbound HTTP
fetch and the gzip decompressor (`gunzip` either fails or yields the
decompressed text). -/
structure World where
  fetch : String → FetchOutcome
  gunzip : String → Except String String

/-- An inbound request: its URL (as parsed by the external `URL` class)
and its `content-type` header. -/
structure RequestModel where
  url : URLParts
  contentType : Option String

/-- `contentType.includes('/html')`. -/
def containsHtmlSub : List Char → Bool
  | '/' :: 'h' :: 't' :: 'm' :: 'l' :: _ => true
  | _ :: rest => containsHtmlSub rest
  | [] => false

/-- The `fetch` request handler of `src/index.ts`. An `Except.error`
result is an exception that escaped the handler unhandled: `parseURL`
and `getGitHubURL` run *outside* the two `try` blocks, so an
`InvalidURLError` thrown during resolution propagates out of the
handler rather than reaching a `catch`. Inside the `try` blocks, every
failure (fetch rejection, gunzip failure, `response.json()` on a
non-JSON body) is caught and rendered by `renderCaught`. -/
def handleFetch (w : World) (req : RequestModel) : Except JSError ResponseModel :=
  let url := req.url
  if url.pathname = "/".data ∨ url.pathname = "".data then
    match req.contentType with
    | some ct =>
      if containsHtmlSub ct.data then
        .ok ⟨200, some "text/html", helpHtml⟩
      else
        .ok ⟨200, some "application/json", jsonStringify2 notFoundDataJson⟩
    | none => .ok ⟨200, some "application/json", jsonStringify2 notFoundDataJson⟩
  else
    match parseURL url with
    | .error e => .error e
    | .ok parsedURL =>
      let gitHubURL := getGitHubURL parsedURL
      if parsedURL.id = "all" then
        match w.fetch gitHubURL with
        | .failure msg => .ok (renderCaught (.other msg))
        | .notOk => .ok ⟨404, none, "Category name not found"⟩
        | .okBody body =>
          match w.gunzip body with
          | .error msg => .ok (renderCaught (.other msg))
          | .ok data => .ok ⟨200, some "application/json", data⟩
      else
        match w.fetch gitHubURL with
        | .failure msg => .ok (renderCaught (.other msg))
        | .notOk => .ok ⟨404, none, "File not found"⟩
        | .okBody body =>
          match jsonParse body with
          | none => .ok (renderCaught (.other "Unexpected end of JSON input"))
          | some data => .ok ⟨200, some "application/json", jsonStringify2 data⟩

/-! ## Round trip of the modelled JSON codec

`JSON.parse` inverts `JSON.stringify(·, null, 2)` on every document of
the model: the basis for the response-relay round-trip claim. -/

/-- Tail may start with anything but a decimal digit (so that a number
literal just before it keeps its exact extent). -/
def headNotDigit (l : List Char) : Bool :=
  match l with
  | [] => true
  | c :: _ => !isDigitB c

theorem skipWs_replicate_space (n : Nat) (l : List Char) :
    skipWs (List.replicate n ' ' ++ l) = skipWs l := by
  induction n with
  | zero => simp
  | succ k ih => simpa [skipWs, isWsB] using ih

theorem skipWs_indent (d : Nat) (l : List Char) :
    skipWs (indentChars d ++ l) = skipWs l :=
  skipWs_replicate_space (2 * d) l

theorem skipWs_nl (l : List Char) : skipWs ('\n' :: l) = skipWs l := by
  simp [skipWs, isWsB]

theorem skipWs_space (l : List Char) : skipWs (' ' :: l) = skipWs l := by
  simp [skipWs, isWsB]

theorem skipWs_not_ws {c : Char} (h : isWsB c = false) (l : List Char) :
    skipWs (c :: l) = c :: l := by
  simp [skipWs, h]

theorem isDigitB_digitChar {n : Nat} (h : n < 10) :
    isDigitB (digitChar n) = true := by
  interval_cases n <;> decide

theorem toNat_digitChar {n : Nat} (h : n < 10) :
    (digitChar n).toNat = 48 + n := by
  interval_cases n <;> decide

theorem natToChars_ne_nil (n : Nat) : natToChars n ≠ [] := by
  rw [natToChars]
  split <;> simp

theorem natToChars_digits (n : Nat) :
    ∀ c ∈ natToChars n, isDigitB c = true := by
  induction n using Nat.strong_induction_on with
  | _ n ih =>
    rw [natToChars]
    split
    · next h =>
      intro c hc
      simp only [List.mem_singleton] at hc
      exact hc ▸ isDigitB_digitChar h
    · next h =>
      intro c hc
      rcases List.mem_append.mp hc with hc | hc
      · exact ih (n / 10) (Nat.div_lt_self (by omega) (by omega)) c hc
      · simp only [List.mem_singleton] at hc
        exact hc ▸ isDigitB_digitChar (Nat.mod_lt n (by omega))

theorem parseDigits_natToChars (n : Nat) :
    ∀ (rest : List Char) (acc : Nat),
    parseDigits (natToChars n ++ rest) acc =
      parseDigits rest (acc * 10 ^ (natToChars n).length + n) := by
  induction n using Nat.strong_induction_on with
  | _ n ih =>
    intro rest acc
    rw [natToChars]
    split
    · next h =>
      simp [parseDigits, isDigitB_digitChar h, toNat_digitChar h]
    · next h =>
      rw [List.append_assoc, List.cons_append, List.nil_append,
        ih (n / 10) (Nat.div_lt_self (by omega) (by omega))]
      have h10 : n % 10 < 10 := Nat.mod_lt n (by omega)
      simp only [parseDigits, isDigitB_digitChar h10, if_pos,
        toNat_digitChar h10, List.length_append, List.length_singleton]
      congr 1
      rw [pow_succ, ← mul_assoc]
      generalize acc * 10 ^ (natToChars (n / 10)).length = B
      omega

theorem parseDigits_stop {rest : List Char} (h : headNotDigit rest = true)
    (acc : Nat) : parseDigits rest acc = (acc, rest) := by
  cases rest with
  | nil => rfl
  | cons c t =>
    simp only [headNotDigit, Bool.not_eq_true'] at h
    simp [parseDigits, h]

theorem parseNatNum_natToChars (n : Nat) {rest : List Char}
    (h : headNotDigit rest = true) :
    parseNatNum (natToChars n ++ rest) = some (n, rest) := by
  rcases hn : natToChars n with _ | ⟨c, t⟩
  · exact absurd hn (natToChars_ne_nil n)
  · have hc : isDigitB c = true :=
      natToChars_digits n c (by rw [hn]; exact List.mem_cons_self c t)
    rw [← hn, show natToChars n ++ rest = c :: (t ++ rest) by rw [hn]; rfl]
    simp only [parseNatNum, hc, if_pos]
    rw [show c :: (t ++ rest) = natToChars n ++ rest by rw [hn]; rfl,
      parseDigits_natToChars, parseDigits_stop h]
    simp

theorem ne_digit_char {c d : Char} (hc : isDigitB c = true)
    (hd : isDigitB d = false) : c ≠ d := by
  intro e
  rw [e, hd] at hc
  exact Bool.noConfusion hc

theorem parseNum_neg (cs : List Char) :
    parseNum ('-' :: cs) =
      match parseNatNum cs with
      | some (n, r) => some (-(n : Int), r)
      | none => none := by
  simp [parseNum]

theorem parseNum_digit {c : Char} (cs : List Char) (hc : isDigitB c = true) :
    parseNum (c :: cs) =
      match parseNatNum (c :: cs) with
      | some (n, r) => some ((n : Int), r)
      | none => none := by
  have hcm : c ≠ '-' := ne_digit_char hc (by decide)
  simp [parseNum, hcm]

theorem parseNum_intToChars (i : Int) {rest : List Char}
    (h : headNotDigit rest = true) :
    parseNum (intToChars i ++ rest) = some (i, rest) := by
  by_cases hneg : i < 0
  · rw [intToChars, if_pos hneg, List.cons_append, parseNum_neg,
      parseNatNum_natToChars i.natAbs h]
    simp only [Option.some.injEq, Prod.mk.injEq]
    exact ⟨by omega, trivial⟩
  · rw [intToChars, if_neg hneg]
    rcases hn : natToChars i.toNat with _ | ⟨c, t⟩
    · exact absurd hn (natToChars_ne_nil i.toNat)
    · have hc : isDigitB c = true :=
        natToChars_digits i.toNat c (by rw [hn]; exact List.mem_cons_self c t)
      rw [List.cons_append, parseNum_digit (t ++ rest) hc, ← List.cons_append,
        ← hn, parseNatNum_natToChars i.toNat h]
      simp only [Option.some.injEq, Prod.mk.injEq]
      exact ⟨by omega, trivial⟩

theorem char_ofNat_toNat (c : Char) : Char.ofNat c.toNat = c := by
  rcases c with ⟨v, hv⟩
  simp only [Char.ofNat, Char.toNat]
  rw [dif_pos hv]
  rfl

theorem hexVal_hexDigitChar {d : Nat} (h : d < 16) :
    hexVal (hexDigitChar d) = d := by
  interval_cases d <;> decide

theorem isHexB_hexDigitChar {d : Nat} (h : d < 16) :
    isHexB (hexDigitChar d) = true := by
  interval_cases d <;> decide

theorem parseStringBody_emit (s : List Char) (rest : List Char) :
    parseStringBody (s.flatMap escChar ++ '"' :: rest) = some (s, rest) := by
  induction s with
  | nil =>
    rw [List.flatMap_nil, List.nil_append, parseStringBody.eq_def]
    simp
  | cons c s ih =>
    rw [List.flatMap_cons, List.append_assoc]
    by_cases h1 : c = '"'
    · subst h1
      simp only [escChar, if_pos rfl, List.cons_append, List.nil_append]
      rw [parseStringBody.eq_def]
      simp [consFst, ih]
    · by_cases h2 : c = '\\'
      · subst h2
        rw [show escChar '\\' = ['\\', '\\'] from by decide, List.cons_append,
          List.cons_append, List.nil_append, parseStringBody.eq_def]
        simp [consFst, ih]
      · by_cases h3 : c = '\n'
        · subst h3
          rw [show escChar '\n' = ['\\', 'n'] from by decide, List.cons_append,
            List.cons_append, List.nil_append, parseStringBody.eq_def]
          simp [consFst, ih]
        · by_cases h4 : c = '\t'
          · subst h4
            rw [show escChar '\t' = ['\\', 't'] from by decide,
              List.cons_append, List.cons_append, List.nil_append,
              parseStringBody.eq_def]
            simp [consFst, ih]
          · by_cases h5 : c = '\r'
            · subst h5
              rw [show escChar '\r' = ['\\', 'r'] from by decide,
                List.cons_append, List.cons_append, List.nil_append,
                parseStringBody.eq_def]
              simp [consFst, ih]
            · by_cases h6 : c.toNat = 8
              · have hc : Char.ofNat 8 = c := by rw [← h6, char_ofNat_toNat]
                simp only [escChar, h1, h2, h3, h4, h5, h6, if_neg, if_pos,
                  if_false, List.cons_append, List.nil_append]
                rw [parseStringBody.eq_def]
                simp [consFst, ih]
                all_goals exact hc
              · by_cases h7 : c.toNat = 12
                · have hc : Char.ofNat 12 = c := by rw [← h7, char_ofNat_toNat]
                  simp only [escChar, h1, h2, h3, h4, h5, h6, h7, if_neg,
                    if_pos, if_false, List.cons_append, List.nil_append]
                  rw [parseStringBody.eq_def]
                  simp [consFst, ih]
                  all_goals exact hc
                · by_cases h8 : c.toNat < 32
                  · have hdiv : c.toNat / 16 < 16 := by omega
                    have hmod : c.toNat % 16 < 16 := Nat.mod_lt _ (by omega)
                    have hcode : hexVal '0' * 4096 + hexVal '0' * 256 +
                        hexVal (hexDigitChar (c.toNat / 16)) * 16 +
                        hexVal (hexDigitChar (c.toNat % 16)) = c.toNat := by
                      rw [hexVal_hexDigitChar hdiv, hexVal_hexDigitChar hmod,
                        show hexVal '0' = 0 from by decide]
                      omega
                    simp only [escChar, h1, h2, h3, h4, h5, h6, h7, h8,
                      if_neg, if_pos, if_false, if_true, List.cons_append,
                      List.nil_append]
                    rw [parseStringBody.eq_def]
                    simp [consFst, ih, show isHexB '0' = true from by decide,
                      isHexB_hexDigitChar hdiv, isHexB_hexDigitChar hmod,
                      hcode, char_ofNat_toNat]
                  · simp only [escChar, h1, h2, h3, h4, h5, h6, h7, h8,
                      if_neg, if_false, List.cons_append, List.nil_append]
                    rw [parseStringBody.eq_def]
                    simp [consFst, ih, h1, h2, h8]

mutual

/-- Fuel bound: the parser spends at most `jsize v` fuel on the
serialization of `v`. -/
def jsize : Json → Nat
  | .null => 1
  | .bool _ => 1
  | .num _ => 1
  | .str _ => 1
  | .arr xs => 1 + jsizeL xs
  | .obj ms => 1 + jsizeM ms

/-- Fuel bound for an array continuation. -/
def jsizeL : List Json → Nat
  | [] => 1
  | x :: xs => 1 + jsize x + jsizeL xs

/-- Fuel bound for an object continuation. -/
def jsizeM : List (String × Json) → Nat
  | [] => 1
  | m :: ms => 1 + jsize m.2 + jsizeM ms

end

theorem jsize_pos (v : Json) : 1 ≤ jsize v := by
  cases v <;> simp [jsize]

theorem jsizeL_pos (xs : List Json) : 1 ≤ jsizeL xs := by
  cases xs
  · rw [jsizeL]
  · rw [jsizeL]; omega

theorem jsizeM_pos (ms : List (String × Json)) : 1 ≤ jsizeM ms := by
  cases ms
  · rw [jsizeM]
  · rw [jsizeM]; omega

theorem string_eta (s : String) : (⟨s.data⟩ : String) = s := rfl

theorem digit_head_facts {c : Char} (hc : isDigitB c = true) :
    isWsB c = false ∧ c ≠ ']' ∧ c ≠ rbrace := by
  refine ⟨?_, fun e => absurd (e ▸ hc) (by decide),
    fun e => absurd (e ▸ hc) (by decide)⟩
  by_cases e1 : c = ' '
  · exact absurd (e1 ▸ hc) (by decide)
  by_cases e2 : c = '\n'
  · exact absurd (e2 ▸ hc) (by decide)
  by_cases e3 : c = '\t'
  · exact absurd (e3 ▸ hc) (by decide)
  by_cases e4 : c = '\r'
  · exact absurd (e4 ▸ hc) (by decide)
  simp [isWsB, e1, e2, e3, e4]

theorem numHead_ne {c : Char} (h : c = '-' ∨ isDigitB c = true) :
    c ≠ 'n' ∧ c ≠ 't' ∧ c ≠ 'f' ∧ c ≠ '"' ∧ c ≠ '[' ∧ c ≠ lbrace ∧
      isWsB c = false ∧ c ≠ ']' ∧ c ≠ rbrace := by
  rcases h with h | h
  · subst h
    exact ⟨by decide, by decide, by decide, by decide, by decide, by decide,
      by decide, by decide, by decide⟩
  · obtain ⟨hw, h1, h2⟩ := digit_head_facts h
    exact ⟨ne_digit_char h (by decide), ne_digit_char h (by decide),
      ne_digit_char h (by decide), ne_digit_char h (by decide),
      ne_digit_char h (by decide), ne_digit_char h (by decide), hw, h1, h2⟩

theorem intToChars_head (i : Int) :
    ∃ c t, intToChars i = c :: t ∧ (c = '-' ∨ isDigitB c = true) := by
  by_cases hneg : i < 0
  · exact ⟨'-', natToChars i.natAbs, by rw [intToChars, if_pos hneg],
      Or.inl rfl⟩
  · rcases hn : natToChars i.toNat with _ | ⟨c, t⟩
    · exact absurd hn (natToChars_ne_nil i.toNat)
    · refine ⟨c, t, by rw [intToChars, if_neg hneg, hn], Or.inr ?_⟩
      exact natToChars_digits i.toNat c (by rw [hn]; exact List.mem_cons_self c t)

/-- The first character of a serialized value: it exists, it is not
whitespace, and it is not a closing bracket. -/
theorem emitVal_head (v : Json) (d : Nat) :
    ∃ c t, emitVal v d = c :: t ∧ isWsB c = false ∧ c ≠ ']' ∧ c ≠ rbrace := by
  cases v with
  | null => exact ⟨'n', _, by rw [emitVal], by decide, by decide, by decide⟩
  | bool b =>
    cases b with
    | true => exact ⟨'t', _, by rw [emitVal], by decide, by decide, by decide⟩
    | false => exact ⟨'f', _, by rw [emitVal], by decide, by decide, by decide⟩
  | num i =>
    obtain ⟨c, t, he, hc⟩ := intToChars_head i
    obtain ⟨-, -, -, -, -, -, hw, h1, h2⟩ := numHead_ne hc
    exact ⟨c, t, by rw [emitVal, he], hw, h1, h2⟩
  | str s =>
    exact ⟨'"', s.data.flatMap escChar ++ ['"'],
      by rw [emitVal, quoteChars]; rfl, by decide, by decide, by decide⟩
  | arr xs =>
    cases xs with
    | nil => exact ⟨'[', _, by rw [emitVal], by decide, by decide, by decide⟩
    | cons x xs =>
      exact ⟨'[', _, by rw [emitVal], by decide, by decide, by decide⟩
  | obj ms =>
    cases ms with
    | nil => exact ⟨lbrace, _, by rw [emitVal], by decide, by decide, by decide⟩
    | cons m ms =>
      exact ⟨lbrace, _, by rw [emitVal], by decide, by decide, by decide⟩

theorem skipWs_emitVal (v : Json) (d : Nat) (r : List Char) :
    skipWs (emitVal v d ++ r) = emitVal v d ++ r := by
  obtain ⟨c, t, he, hw, -, -⟩ := emitVal_head v d
  rw [he, List.cons_append, skipWs_not_ws hw]

theorem headNotDigit_arrRest (xs : List Json) (d : Nat) (l : List Char) :
    headNotDigit (emitArrRest xs d ++ '\n' :: l) = true := by
  cases xs with
  | nil => rw [emitArrRest]; rfl
  | cons x xs => rw [emitArrRest]; rfl

theorem headNotDigit_objRest (ms : List (String × Json)) (d : Nat)
    (l : List Char) :
    headNotDigit (emitObjRest ms d ++ '\n' :: l) = true := by
  cases ms with
  | nil => rw [emitObjRest]; rfl
  | cons m ms => rw [emitObjRest]; rfl

theorem stripChars_exact (ps rest : List Char) :
    stripChars ps (ps ++ rest) = some rest := by
  induction ps with
  | nil => rw [List.nil_append, stripChars]
  | cons p ps ih =>
    rw [List.cons_append, stripChars.eq_def]
    simp [ih]

theorem lbrace_facts :
    lbrace ≠ 'n' ∧ lbrace ≠ 't' ∧ lbrace ≠ 'f' ∧ lbrace ≠ '"' ∧
      lbrace ≠ '[' ∧ isWsB lbrace = false ∧ isWsB rbrace = false ∧
      isDigitB lbrace = false ∧ isDigitB rbrace = false := by
  decide

theorem parseVal_null (f : Nat) (rest : List Char) :
    parseVal (f + 1) ('n' :: 'u' :: 'l' :: 'l' :: rest) = some (.null, rest) := by
  rw [parseVal.eq_def]
  simp [show stripChars ['u', 'l', 'l'] ('u' :: 'l' :: 'l' :: rest) = some rest
    from stripChars_exact ['u', 'l', 'l'] rest]

theorem parseVal_true (f : Nat) (rest : List Char) :
    parseVal (f + 1) ('t' :: 'r' :: 'u' :: 'e' :: rest) =
      some (.bool true, rest) := by
  rw [parseVal.eq_def]
  simp [show stripChars ['r', 'u', 'e'] ('r' :: 'u' :: 'e' :: rest) = some rest
    from stripChars_exact ['r', 'u', 'e'] rest]

theorem parseVal_false (f : Nat) (rest : List Char) :
    parseVal (f + 1) ('f' :: 'a' :: 'l' :: 's' :: 'e' :: rest) =
      some (.bool false, rest) := by
  rw [parseVal.eq_def]
  simp [show stripChars ['a', 'l', 's', 'e'] ('a' :: 'l' :: 's' :: 'e' :: rest) =
      some rest from stripChars_exact ['a', 'l', 's', 'e'] rest]

theorem parseVal_strLit (f : Nat) (s : List Char) (rest : List Char) :
    parseVal (f + 1) (quoteChars s ++ rest) = some (.str ⟨s⟩, rest) := by
  rw [quoteChars, List.append_assoc, List.singleton_append, List.cons_append,
    parseVal.eq_def]
  simp [parseStringBody_emit]

theorem parseVal_numLit (f : Nat) (i : Int) {rest : List Char}
    (hr : headNotDigit rest = true) :
    parseVal (f + 1) (intToChars i ++ rest) = some (.num i, rest) := by
  obtain ⟨c, t, he, hc⟩ := intToChars_head i
  obtain ⟨hn, ht, hfa, hq, hb, hbr, -, -, -⟩ := numHead_ne hc
  rw [he, List.cons_append, parseVal.eq_def]
  simp only [hn, ht, hfa, hq, hb, hbr, if_neg, if_false]
  rw [← List.cons_append, ← he, parseNum_intToChars i hr]

theorem parseVal_emptyArr (f : Nat) (rest : List Char) :
    parseVal (f + 1) ('[' :: ']' :: rest) = some (.arr [], rest) := by
  rw [parseVal.eq_def]
  simp [skipWs_not_ws (show isWsB ']' = false from by decide)]

theorem parseVal_emptyObj (f : Nat) (rest : List Char) :
    parseVal (f + 1) (lbrace :: rbrace :: rest) = some (.obj [], rest) := by
  obtain ⟨h1, h2, h3, h4, h5, -, hw, -, -⟩ := lbrace_facts
  rw [parseVal.eq_def]
  simp [h1, h2, h3, h4, h5, skipWs_not_ws hw]

theorem emitMember_head (m : String × Json) (d : Nat) :
    ∃ t, emitMember m d = '"' :: t := by
  obtain ⟨k, v⟩ := m
  exact ⟨_, by rw [emitMember, quoteChars]; rfl⟩

mutual

/-- The parser inverts the serializer on any value, given enough fuel
and a tail that does not extend a number literal. -/
theorem parseVal_emit (v : Json) (d : Nat) (rest : List Char) (fuel : Nat)
    (hf : jsize v ≤ fuel) (hr : headNotDigit rest = true) :
    parseVal fuel (emitVal v d ++ rest) = some (v, rest) := by
  cases fuel with
  | zero => exact absurd hf (by have := jsize_pos v; omega)
  | succ f =>
    cases v with
    | null => rw [emitVal]; exact parseVal_null f rest
    | bool b =>
      cases b with
      | true => rw [emitVal]; exact parseVal_true f rest
      | false => rw [emitVal]; exact parseVal_false f rest
    | num i => rw [emitVal]; exact parseVal_numLit f i hr
    | str s => rw [emitVal]; exact parseVal_strLit f s.data rest
    | arr xs =>
      cases xs with
      | nil => rw [emitVal]; exact parseVal_emptyArr f rest
      | cons x xs =>
        rw [jsize, jsizeL] at hf
        have hx : jsize x ≤ f := by have := jsizeL_pos xs; omega
        have hxs : jsizeL xs ≤ f := by have := jsize_pos x; omega
        obtain ⟨cx, tx, hex, hwx, hbx, -⟩ := emitVal_head x (d + 1)
        have hrec1 := parseVal_emit x (d + 1)
          (emitArrRest xs (d + 1) ++ '\n' :: (indentChars d ++ (']' :: rest)))
          f hx (headNotDigit_arrRest xs (d + 1) (indentChars d ++ (']' :: rest)))
        have hrec2 := parseArr_emit xs d rest f hxs
        rw [hex] at hrec1
        simp only [List.cons_append, List.append_assoc] at hrec1
        rw [emitVal]
        simp only [List.append_assoc, List.cons_append, List.singleton_append]
        rw [parseVal.eq_def]
        simp [skipWs_nl, skipWs_indent, hex, List.cons_append,
          skipWs_not_ws hwx, hbx, hrec1, hrec2]
    | obj ms =>
      cases ms with
      | nil => rw [emitVal]; exact parseVal_emptyObj f rest
      | cons m ms =>
        rw [jsize, jsizeM] at hf
        have hm : 1 + jsize m.2 ≤ f := by have := jsizeM_pos ms; omega
        have hms : jsizeM ms ≤ f := by have := jsize_pos m.2; omega
        obtain ⟨tm, hem⟩ := emitMember_head m (d + 1)
        obtain ⟨h1, h2, h3, h4, h5, hwl, hwr, -, -⟩ := lbrace_facts
        have hrec1 := parseMem_emit m (d + 1)
          (emitObjRest ms (d + 1) ++ '\n' :: (indentChars d ++ (rbrace :: rest)))
          f hm (headNotDigit_objRest ms (d + 1) (indentChars d ++ (rbrace :: rest)))
        have hrec2 := parseObj_emit ms d rest f hms
        rw [hem] at hrec1
        simp only [List.cons_append, List.append_assoc] at hrec1
        rw [emitVal]
        simp only [List.append_assoc, List.cons_append, List.singleton_append]
        rw [parseVal.eq_def]
        simp [h1, h2, h3, h4, h5, skipWs_nl, skipWs_indent, hem,
          List.cons_append, skipWs_not_ws (show isWsB '"' = false from by decide),
          show ('"' : Char) ≠ rbrace from by decide, hrec1, hrec2]

/-- The array-continuation parser inverts `emitArrRest` plus the
closing newline, indentation and bracket. -/
theorem parseArr_emit (xs : List Json) (d : Nat) (rest : List Char)
    (fuel : Nat) (hf : jsizeL xs ≤ fuel) :
    parseArrRest fuel
      (emitArrRest xs (d + 1) ++ '\n' :: (indentChars d ++ (']' :: rest))) =
      some (xs, rest) := by
  cases fuel with
  | zero => exact absurd hf (by have := jsizeL_pos xs; omega)
  | succ f =>
    cases xs with
    | nil =>
      rw [emitArrRest, List.nil_append, parseArrRest.eq_def]
      simp [skipWs_nl, skipWs_indent,
        skipWs_not_ws (show isWsB ']' = false from by decide)]
    | cons x xs =>
      rw [jsizeL] at hf
      have hx : jsize x ≤ f := by have := jsizeL_pos xs; omega
      have hxs : jsizeL xs ≤ f := by have := jsize_pos x; omega
      obtain ⟨cx, tx, hex, hwx, hbx, -⟩ := emitVal_head x (d + 1)
      have hrec1 := parseVal_emit x (d + 1)
        (emitArrRest xs (d + 1) ++ '\n' :: (indentChars d ++ (']' :: rest)))
        f hx (headNotDigit_arrRest xs (d + 1) (indentChars d ++ (']' :: rest)))
      have hrec2 := parseArr_emit xs d rest f hxs
      rw [hex] at hrec1
      simp only [List.cons_append, List.append_assoc] at hrec1
      rw [emitArrRest]
      simp only [List.append_assoc, List.cons_append, List.singleton_append]
      rw [parseArrRest.eq_def]
      simp [skipWs_nl, skipWs_indent, hex, List.cons_append,
        skipWs_not_ws (show isWsB ',' = false from by decide),
        skipWs_not_ws hwx, hbx, hrec1, hrec2]

/-- The member parser inverts `emitMember`. -/
theorem parseMem_emit (m : String × Json) (d : Nat) (rest : List Char)
    (fuel : Nat) (hf : 1 + jsize m.2 ≤ fuel) (hr : headNotDigit rest = true) :
    parseMember fuel (emitMember m d ++ rest) = some (m, rest) := by
  cases fuel with
  | zero => exact absurd hf (by omega)
  | succ f =>
    obtain ⟨k, v⟩ := m
    have hv : jsize v ≤ f := by simp only at hf; omega
    have hrec := parseVal_emit v d rest f hv hr
    rw [emitMember, quoteChars]
    simp only [List.append_assoc, List.cons_append, List.singleton_append]
    rw [parseMember.eq_def]
    simp [parseStringBody_emit, skipWs_space, skipWs_emitVal,
      skipWs_not_ws (show isWsB ':' = false from by decide), hrec, string_eta]

/-- The object-continuation parser inverts `emitObjRest` plus the
closing newline, indentation and brace. -/
theorem parseObj_emit (ms : List (String × Json)) (d : Nat) (rest : List Char)
    (fuel : Nat) (hf : jsizeM ms ≤ fuel) :
    parseObjRest fuel
      (emitObjRest ms (d + 1) ++ '\n' :: (indentChars d ++ (rbrace :: rest))) =
      some (ms, rest) := by
  cases fuel with
  | zero => exact absurd hf (by have := jsizeM_pos ms; omega)
  | succ f =>
    cases ms with
    | nil =>
      rw [emitObjRest, List.nil_append, parseObjRest.eq_def]
      simp [skipWs_nl, skipWs_indent,
        skipWs_not_ws (show isWsB rbrace = false from by decide)]
    | cons m ms =>
      rw [jsizeM] at hf
      have hm : 1 + jsize m.2 ≤ f := by have := jsizeM_pos ms; omega
      have hms : jsizeM ms ≤ f := by have := jsize_pos m.2; omega
      obtain ⟨tm, hem⟩ := emitMember_head m (d + 1)
      have hrec1 := parseMem_emit m (d + 1)
        (emitObjRest ms (d + 1) ++ '\n' :: (indentChars d ++ (rbrace :: rest)))
        f hm (headNotDigit_objRest ms (d + 1) (indentChars d ++ (rbrace :: rest)))
      have hrec2 := parseObj_emit ms d rest f hms
      rw [hem] at hrec1
      simp only [List.cons_append, List.append_assoc] at hrec1
      rw [emitObjRest]
      simp only [List.append_assoc, List.cons_append, List.singleton_append]
      rw [parseObjRest.eq_def]
      simp [skipWs_nl, skipWs_indent, hem, List.cons_append,
        skipWs_not_ws (show isWsB ',' = false from by decide),
        skipWs_not_ws (show isWsB '"' = false from by decide),
        show (',' : Char) ≠ rbrace from by decide,
        show ('"' : Char) ≠ rbrace from by decide, hrec1, hrec2]

end

theorem indentChars_length (d : Nat) : (indentChars d).length = 2 * d := by
  simp [indentChars]

mutual

/-- The serialization of a value is at least as long as its fuel
bound, less one. -/
theorem jsize_le_emit (v : Json) (d : Nat) :
    jsize v ≤ (emitVal v d).length + 1 := by
  cases v with
  | null => rw [jsize, emitVal]; simp
  | bool b => cases b <;> (rw [jsize, emitVal]; simp)
  | num i => rw [jsize]; omega
  | str s => rw [jsize]; omega
  | arr xs =>
    cases xs with
    | nil => rw [jsize, jsizeL, emitVal]; simp
    | cons x xs =>
      have h1 := jsize_le_emit x (d + 1)
      have h2 := jsizeL_le_emit xs (d + 1)
      rw [jsize, jsizeL, emitVal]
      simp only [List.length_cons, List.length_append, indentChars_length]
      omega
  | obj ms =>
    cases ms with
    | nil => rw [jsize, jsizeM, emitVal]; simp
    | cons m ms =>
      have h1 := jsizeMem_le_emit m (d + 1)
      have h2 := jsizeM_le_emit ms (d + 1)
      rw [jsize, jsizeM, emitVal]
      simp only [List.length_cons, List.length_append, indentChars_length]
      omega

/-- Length bound for one serialized object member. -/
theorem jsizeMem_le_emit (m : String × Json) (d : Nat) :
    1 + jsize m.2 ≤ (emitMember m d).length := by
  obtain ⟨k, v⟩ := m
  have h1 := jsize_le_emit v d
  rw [emitMember, quoteChars]
  simp only [List.length_append, List.length_cons, List.cons_append]
  simp only at h1 ⊢
  omega

/-- Length bound for a serialized array continuation. -/
theorem jsizeL_le_emit (xs : List Json) (d : Nat) :
    jsizeL xs ≤ (emitArrRest xs d).length + 1 := by
  cases xs with
  | nil => rw [jsizeL, emitArrRest]; simp
  | cons x xs =>
    have h1 := jsize_le_emit x d
    have h2 := jsizeL_le_emit xs d
    rw [jsizeL, emitArrRest]
    simp only [List.length_cons, List.length_append, indentChars_length]
    omega

/-- Length bound for a serialized object continuation. -/
theorem jsizeM_le_emit (ms : List (String × Json)) (d : Nat) :
    jsizeM ms ≤ (emitObjRest ms d).length + 1 := by
  cases ms with
  | nil => rw [jsizeM, emitObjRest]; simp
  | cons m ms =>
    have h1 := jsizeMem_le_emit m d
    have h2 := jsizeM_le_emit ms d
    rw [jsizeM, emitObjRest]
    simp only [List.length_cons, List.length_append, indentChars_length]
    omega

end

/-- Round trip of the modelled JSON codec: `JSON.parse` recovers the
exact document from its `JSON.stringify(·, null, 2)` serialization. -/
theorem jsonParse_stringify2 (v : Json) :
    jsonParse (jsonStringify2 v) = some v := by
  have hlen : jsize v ≤ (emitVal v 0).length + 1 := jsize_le_emit v 0
  have h0 := parseVal_emit v 0 [] ((emitVal v 0).length + 1) hlen rfl
  rw [List.append_nil] at h0
  have hskip := skipWs_emitVal v 0 []
  rw [List.append_nil] at hskip
  rw [jsonStringify2, jsonParse,
    show (⟨emitVal v 0⟩ : String).data = emitVal v 0 from rfl, hskip, h0]
  rfl

/-! ## Resolver lemmas -/

theorem getParam_cons_eq {kv : String × String} {q : List (String × String)}
    {k : String} (h : kv.1 = k) : getParam (kv :: q) k = some kv.2 := by
  simp [getParam, List.find?_cons_of_pos, h]

theorem getParam_cons_ne {kv : String × String} {q : List (String × String)}
    {k : String} (h : kv.1 ≠ k) : getParam (kv :: q) k = getParam q k := by
  rw [getParam, List.find?_cons_of_neg _ (by simp [h]), getParam]

theorem getParam_filter (q : List (String × String)) (k key : String)
    (hk : k ≠ key) :
    getParam (q.filter (fun kv => kv.1 ≠ key)) k = getParam q k := by
  induction q with
  | nil => rfl
  | cons kv q ih =>
    rw [List.filter_cons]
    by_cases h1 : kv.1 = key
    · have h2 : kv.1 ≠ k := fun e => hk (by rw [← e, h1])
      rw [if_neg (by simp [h1]), ih, getParam_cons_ne h2]
    · by_cases h2 : kv.1 = k
      · rw [if_pos (by simp [h1]), getParam_cons_eq h2, getParam_cons_eq h2]
      · rw [if_pos (by simp [h1]), getParam_cons_ne h2, getParam_cons_ne h2, ih]

theorem getParam_filter_self (q : List (String × String)) (key : String) :
    getParam (q.filter (fun kv => kv.1 ≠ key)) key = none := by
  induction q with
  | nil => rfl
  | cons kv q ih =>
    rw [List.filter_cons]
    by_cases h1 : kv.1 = key
    · rw [if_neg (by simp [h1])]; exact ih
    · rw [if_pos (by simp [h1]), getParam_cons_ne h1]; exact ih

/-- `parseCore` consults the query pairs only through the three
parameters it reads. -/
theorem parseCore_congr (first second third : Option String)
    (q q' : List (String × String))
    (h1 : getParam q "lang" = getParam q' "lang")
    (h2 : getParam q "language" = getParam q' "language")
    (h3 : getParam q "branch" = getParam q' "branch") :
    parseCore first second third q = parseCore first second third q' := by
  cases first with
  | none => rfl
  | some f => simp only [parseCore, orElseJS, h1, h2, h3]

/-- When `lang` is present, `parseCore` never reads `language`. -/
theorem parseCore_lang_short (first second third : Option String)
    (q q' : List (String × String)) (v : String)
    (hq : getParam q "lang" = some v) (hq' : getParam q' "lang" = some v)
    (h3 : getParam q "branch" = getParam q' "branch") :
    parseCore first second third q = parseCore first second third q' := by
  cases first with
  | none => rfl
  | some f => simp only [parseCore, orElseJS, hq, hq', h3]

theorem parseURL_pathSegs_congr (p p' : List Char)
    (q : List (String × String)) (h : pathSegs p = pathSegs p') :
    parseURL ⟨p, q⟩ = parseURL ⟨p', q⟩ := by
  simp only [parseURL, h]

theorem splitSegs_nil : splitSegs [] = [[]] := rfl

theorem splitSegs_slash (cs : List Char) :
    splitSegs ('/' :: cs) = [] :: splitSegs cs := by
  rw [splitSegs.eq_def]
  simp

theorem splitSegs_cons {c : Char} (cs : List Char) (hc : c ≠ '/') :
    splitSegs (c :: cs) =
      match splitSegs cs with
      | [] => [[c]]
      | s :: rest => (c :: s) :: rest := by
  rw [splitSegs.eq_def]
  simp [hc]

theorem splitSegs_ne_nil (l : List Char) : splitSegs l ≠ [] := by
  cases l with
  | nil => simp [splitSegs_nil]
  | cons c cs =>
    by_cases hc : c = '/'
    · subst hc; rw [splitSegs_slash]; simp
    · rw [splitSegs_cons cs hc]
      rcases splitSegs cs with _ | ⟨s, rest⟩ <;> simp

theorem splitSegs_append_slash (a b : List Char) :
    splitSegs (a ++ '/' :: b) = splitSegs a ++ splitSegs b := by
  induction a with
  | nil => rw [List.nil_append, splitSegs_slash, splitSegs_nil]; rfl
  | cons c a ih =>
    by_cases hc : c = '/'
    · subst hc
      rw [List.cons_append, splitSegs_slash, splitSegs_slash, ih,
        List.cons_append]
    · rcases ha : splitSegs a with _ | ⟨s, rest⟩
      · exact absurd ha (splitSegs_ne_nil a)
      · rw [List.cons_append, splitSegs_cons (a ++ '/' :: b) hc,
          splitSegs_cons a hc, ih, ha]
        simp

theorem pathSegs_append (a b : List Char) :
    pathSegs (a ++ '/' :: b) = pathSegs a ++ pathSegs b := by
  rw [pathSegs, pathSegs, pathSegs, splitSegs_append_slash,
    List.filter_append, List.map_append]

/-- The pathname `doubleSlashes p` is `p` with every slash doubled. -/
def doubleSlashes (l : List Char) : List Char :=
  l.flatMap (fun c => if c = '/' then ['/', '/'] else [c])

/-- Insert an empty segment between adjacent segments: the effect of
doubling the separators on the split. -/
def dblSeg : List (List Char) → List (List Char)
  | [] => []
  | [s] => [s]
  | s :: rest => s :: [] :: dblSeg rest

theorem splitSegs_doubleSlashes (l : List Char) :
    splitSegs (doubleSlashes l) = dblSeg (splitSegs l) := by
  induction l with
  | nil => rfl
  | cons c cs ih =>
    rcases hs : splitSegs cs with _ | ⟨s, rest⟩
    · exact absurd hs (splitSegs_ne_nil cs)
    · by_cases hc : c = '/'
      · subst hc
        have hd : doubleSlashes ('/' :: cs) =
            '/' :: '/' :: doubleSlashes cs := rfl
        rw [hd, splitSegs_slash, splitSegs_slash, ih, hs, splitSegs_slash, hs]
        rfl
      · have hd : doubleSlashes (c :: cs) = c :: doubleSlashes cs := by
          rw [doubleSlashes, List.flatMap_cons, if_neg hc]
          rfl
        rw [hd, splitSegs_cons (doubleSlashes cs) hc, ih, hs,
          splitSegs_cons cs hc, hs]
        cases rest with
        | nil => rfl
        | cons r rs => rfl

theorem filter_dblSeg (l : List (List Char)) :
    (dblSeg l).filter (fun s => s ≠ []) = l.filter (fun s => s ≠ []) := by
  induction l with
  | nil => rfl
  | cons s r ih =>
    cases r with
    | nil => rfl
    | cons r rs =>
      have hd : dblSeg (s :: r :: rs) = s :: [] :: dblSeg (r :: rs) := rfl
      simp only [ne_eq, decide_not] at ih
      rw [hd]
      simp only [List.filter_cons]
      simp [ih, List.filter_cons]

theorem pathSegs_doubleSlashes (p : List Char) :
    pathSegs (doubleSlashes p) = pathSegs p := by
  rw [pathSegs, pathSegs, splitSegs_doubleSlashes, filter_dblSeg]

/-- Every key of the language directory has a display form. -/
theorem lookup_mem_keys (L : List (String × String)) (l : String)
    (h : l ∈ L.map Prod.fst) : ∃ d, L.lookup l = some d := by
  induction L with
  | nil => simp at h
  | cons kv L ih =>
    by_cases he : kv.1 = l
    · exact ⟨kv.2, by simp [List.lookup, he]⟩
    · have hmem : l ∈ L.map Prod.fst := by
        rcases List.mem_map.mp h with ⟨x, hx, hxl⟩
        rcases List.mem_cons.mp hx with hx1 | hx2
        · exact absurd (by rw [hx1] at hxl; exact hxl) he
        · exact List.mem_map.mpr ⟨x, hx2, hxl⟩
      rcases ih hmem with ⟨d, hd⟩
      have hb : (l == kv.1) = false := beq_eq_false_iff_ne.mpr (Ne.symm he)
      exact ⟨d, by simp [List.lookup, hb, hd]⟩

/-- The four fields of any successful resolution, as functions of the
three leading segments and the query parameters. -/
theorem parseCore_ok_fields {first : String} {second third : Option String}
    {q : List (String × String)} {res : ParsedURL}
    (hok : parseCore (some first) second third q = .ok res) :
    res.branch = (getParam q "branch").getD "main" ∧
    res.language = (getLanguage (orElseJS (getParam q "lang")
      (getParam q "language"))).getD ((getLanguage (some first)).getD "english") ∧
    res.category = (if (getLanguage (some first)).isSome then second
      else some first) ∧
    res.id = ((if (getLanguage (some first)).isSome then third
      else second).getD "index") := by
  rcases hA : getLanguage (orElseJS (getParam q "lang")
      (getParam q "language")) with _ | lA
  · rcases hB : getLanguage (some first) with _ | lB
    · simp only [parseCore, hA, hB] at hok
      split at hok
      · injection hok with h
        subst h
        simp [hA, hB]
      · exact absurd hok (by simp)
    · simp only [parseCore, hA, hB] at hok
      split at hok
      · injection hok with h
        subst h
        simp [hA, hB]
      · exact absurd hok (by simp)
  · rcases hB : getLanguage (some first) with _ | lB
    · simp only [parseCore, hA, hB] at hok
      split at hok
      · injection hok with h
        subst h
        simp [hA, hB]
      · exact absurd hok (by simp)
    · simp only [parseCore, hA, hB] at hok
      split at hok
      · injection hok with h
        subst h
        simp [hA, hB]
      · exact absurd hok (by simp)

example : parseURL ⟨"/artifacts".data, []⟩ =
    .ok ⟨"english", some "artifacts", "index", "main"⟩ := by decide

example : parseURL ⟨"/japanese/artifacts/adventurer".data, []⟩ =
    .ok ⟨"japanese", some "artifacts", "adventurer", "main"⟩ := by decide

example : parseURL ⟨"/artifacts/adventurer".data, [("lang", "japanese")]⟩ =
    .ok ⟨"japanese", some "artifacts", "adventurer", "main"⟩ := by decide

example : parseURL ⟨"//".data, []⟩ =
    .error (.invalidURL "Invalid URL Format") := by decide

example : parseURL ⟨"/English/artifacts".data, []⟩ =
    .error (.invalidURL "Invalid Language") := by decide

example : getLanguage (some "JA") = some "japanese" := by decide

example : getLanguage (some "English") = some "English" := by decide

/-! ## The claims -/

/-- A concrete environment whose upstream fetch always reports a
non-success status and whose gunzip always fails. -/
def notOkWorld : World := ⟨fun _ => .notOk, fun _ => .error "bad gzip"⟩

/-- A concrete environment whose upstream fetch always succeeds with
the JSON body `[1, 2]`. -/
def okJsonWorld : World := ⟨fun _ => .okBody "[1, 2]", fun _ => .error "bad gzip"⟩

/-- Claim C1, refuted by the code: the claim says every `InvalidURLError`
raised during resolution is caught at the handler's outer boundary and
rendered as a 400 JSON error body, with no exception escaping unhandled.
In `src/index.ts` `parseURL` runs *outside* both `try` blocks, so for a
request URL whose pathname is `//` (no non-empty segment) the
`InvalidURLError("Invalid URL Format")` escapes the handler unhandled —
the `err instanceof InvalidURLError` tests in the two `catch` blocks are
dead code. -/
theorem c1_invalid_url_error_escapes :
    handleFetch notOkWorld ⟨⟨"//".data, []⟩, none⟩ =
      .error (.invalidURL "Invalid URL Format") := by decide

/-- Claim C2, refuted by the code: the claim says `getLanguage` returns
the canonical lowercase key whenever the lowercased token is a direct
key of the language directory. The code returns the *original* token
(`return value`, not `lowercaseVal`): `getLanguage "English"` yields
`"English"`, which is neither the canonical key `"english"` nor a
member of the directory's key set, violating the claimed invariant. -/
theorem c2_getLanguage_original_casing :
    getLanguage (some "English") = some "English" ∧
      getLanguage (some "English") ≠ some "english" ∧
      "English" ∉ lowercaseLanguages ∧ "english" ∈ lowercaseLanguages := by
  decide

/-- Claim C3, refuted by the code: the claim says the final defensive
`Invalid Language` check of `parseURL` is unreachable. Because
`getLanguage` returns mixed-case direct-key hits unlowercased (the C2
bug), the path `/English/artifacts` reaches that branch and resolution
throws `InvalidURLError("Invalid Language")`. -/
theorem c3_invalid_language_reachable :
    parseURL ⟨"/English/artifacts".data, []⟩ =
      .error (.invalidURL "Invalid Language") := by decide

/-- Claim C4: on a request path with at least one non-empty segment and
no `lang`/`language` query parameter, a successful resolution assigns:
if the first segment canonicalizes as a language token, `language` is
the canonicalized result, `category` the second segment and `id` the
third; otherwise `category` is the first segment, `id` the second and
`language` the canonical `english` key; and a missing `id` defaults to
the reserved token `index`. -/
theorem c4_path_resolution (p : List Char) (q : List (String × String))
    (res : ParsedURL) (first : String)
    (hfirst : (pathSegs p).get? 0 = some first)
    (hl : getParam q "lang" = none) (hg : getParam q "language" = none)
    (hok : parseURL ⟨p, q⟩ = .ok res) :
    (∀ l, getLanguage (some first) = some l →
      res.language = l ∧ res.category = (pathSegs p).get? 1 ∧
        res.id = ((pathSegs p).get? 2).getD "index") ∧
    (getLanguage (some first) = none →
      res.language = "english" ∧ res.category = some first ∧
        res.id = ((pathSegs p).get? 1).getD "index") := by
  simp only [parseURL] at hok
  rw [hfirst] at hok
  obtain ⟨-, hlang, hcat, hid⟩ := parseCore_ok_fields hok
  have hq : orElseJS (getParam q "lang") (getParam q "language") = none := by
    rw [hl, hg]
    rfl
  constructor
  · intro l hl'
    refine ⟨?_, ?_, ?_⟩
    · rw [hlang, hq, show getLanguage none = none from rfl, Option.getD_none,
        hl', Option.getD_some]
    · rw [hcat, hl']
      rfl
    · rw [hid, hl']
      rfl
  · intro hn
    refine ⟨?_, ?_, ?_⟩
    · rw [hlang, hq, show getLanguage none = none from rfl, Option.getD_none,
        hn, Option.getD_none]
    · rw [hcat, hn]
      rfl
    · rw [hid, hn]
      rfl

/-- Witness for C4 at the request path `/artifacts` with an empty query
string: the first segment is not a language, so it becomes the
category, the id defaults to `index` and the language to `english`. -/
theorem c4_path_resolution_witness :
    (pathSegs "/artifacts".data).get? 0 = some "artifacts" ∧
    getParam ([] : List (String × String)) "lang" = none ∧
    getParam ([] : List (String × String)) "language" = none ∧
    parseURL ⟨"/artifacts".data, []⟩ =
      .ok ⟨"english", some "artifacts", "index", "main"⟩ ∧
    ((⟨"english", some "artifacts", "index", "main"⟩ : ParsedURL).language =
        "english" ∧
      (⟨"english", some "artifacts", "index", "main"⟩ : ParsedURL).category =
        some "artifacts" ∧
      (⟨"english", some "artifacts", "index", "main"⟩ : ParsedURL).id =
        ((pathSegs "/artifacts".data).get? 1).getD "index") :=
  ⟨by decide, rfl, rfl, by decide,
    (c4_path_resolution "/artifacts".data []
      ⟨"english", some "artifacts", "index", "main"⟩ "artifacts"
      (by decide) rfl rfl (by decide)).2 (by decide)⟩

/-- Claim C5: for every successfully resolved request URL, `branch`
equals the `branch` query parameter (or `main` when absent); the query
parameters `lang` and `language` are read with `lang` checked first and
the first one present winning; and a canonicalizable winning value
overrides the path-derived language. -/
theorem c5_query_override (u : URLParts) (res : ParsedURL)
    (hok : parseURL u = .ok res) :
    res.branch = (getParam u.searchParams "branch").getD "main" ∧
    (∀ v l, getParam u.searchParams "lang" = some v →
      getLanguage (some v) = some l → res.language = l) ∧
    (∀ v l, getParam u.searchParams "lang" = none →
      getParam u.searchParams "language" = some v →
      getLanguage (some v) = some l → res.language = l) := by
  rcases hfirst : (pathSegs u.pathname).get? 0 with _ | first
  · simp only [parseURL, hfirst, parseCore] at hok
    exact absurd hok (by simp)
  · simp only [parseURL, hfirst] at hok
    obtain ⟨hbranch, hlang, -, -⟩ := parseCore_ok_fields hok
    refine ⟨hbranch, ?_, ?_⟩
    · intro v l h1 h2
      rw [hlang, show orElseJS (getParam u.searchParams "lang")
          (getParam u.searchParams "language") = some v from by rw [h1]; rfl,
        h2]
      rfl
    · intro v l h0 h1 h2
      rw [hlang, show orElseJS (getParam u.searchParams "lang")
          (getParam u.searchParams "language") = some v from by
          rw [h0]; exact h1,
        h2]
      rfl

/-- Witness for C5 at `/artifacts/adventurer?lang=japanese`: the query
override wins over the path-derived default language. -/
theorem c5_query_override_witness :
    parseURL ⟨"/artifacts/adventurer".data, [("lang", "japanese")]⟩ =
      .ok ⟨"japanese", some "artifacts", "adventurer", "main"⟩ ∧
    getParam [("lang", "japanese")] "lang" = some "japanese" ∧
    getLanguage (some "japanese") = some "japanese" ∧
    (⟨"japanese", some "artifacts", "adventurer", "main"⟩ : ParsedURL).language =
      "japanese" :=
  ⟨by decide, rfl, by decide,
    (c5_query_override ⟨"/artifacts/adventurer".data, [("lang", "japanese")]⟩
      ⟨"japanese", some "artifacts", "adventurer", "main"⟩ (by decide)).2.1
      "japanese" "japanese" rfl (by decide)⟩

/-- Claim C6: the upstream URL builder is a total function of the
`ParsedURL` (it cannot fail), and, checking in order: `id = "all"`
yields the bulk-archive URL under the dist repository with the
lowercase language key; `id = "index"` yields the index URL under the
data repository with the display form of the language; any other id
yields the per-record URL with the display form. The language key of
any `ParsedURL` with a directory language is its own lowercasing. -/
theorem c6_getGitHubURL (p : ParsedURL) (c : String)
    (hlang : p.language ∈ lowercaseLanguages) (hcat : p.category = some c) :
    lowerStr p.language = p.language ∧
    ∃ disp, languagesDir.lookup p.language = some disp ∧
      (p.id = "all" → getGitHubURL p =
        "https://raw.githubusercontent.com/theBowja/genshin-db-dist/refs/heads/"
          ++ p.branch ++ "/data/gzips/" ++ p.language ++ "-" ++ c
          ++ ".min.json.gzip") ∧
      (p.id ≠ "all" → p.id = "index" → getGitHubURL p =
        "https://raw.githubusercontent.com/theBowja/genshin-db/refs/heads/"
          ++ p.branch ++ "/src/data/index/" ++ disp ++ "/" ++ c ++ ".json") ∧
      (p.id ≠ "all" → p.id ≠ "index" → getGitHubURL p =
        "https://raw.githubusercontent.com/theBowja/genshin-db/refs/heads/"
          ++ p.branch ++ "/src/data/" ++ disp ++ "/" ++ c ++ "/" ++ p.id
          ++ ".json") := by
  obtain ⟨disp, hdisp⟩ := lookup_mem_keys languagesDir p.language hlang
  refine ⟨?_, disp, hdisp, ?_, ?_, ?_⟩
  · exact (show ∀ l ∈ lowercaseLanguages, lowerStr l = l from by decide)
      p.language hlang
  · intro h
    rw [getGitHubURL, if_pos h, hcat]
    rfl
  · intro h1 h2
    rw [getGitHubURL, if_neg h1, if_pos h2, hcat, hdisp]
    rfl
  · intro h1 h2
    rw [getGitHubURL, if_neg h1, if_neg h2, hcat, hdisp]
    rfl

/-- Witness for C6: the bulk-archive URL for
`japanese / artifacts / all` on branch `main`. -/
theorem c6_getGitHubURL_witness :
    ("japanese" ∈ lowercaseLanguages) ∧
    (⟨"japanese", some "artifacts", "all", "main"⟩ : ParsedURL).category =
      some "artifacts" ∧
    getGitHubURL ⟨"japanese", some "artifacts", "all", "main"⟩ =
      "https://raw.githubusercontent.com/theBowja/genshin-db-dist/refs/heads/main/data/gzips/japanese-artifacts.min.json.gzip" := by
  refine ⟨by decide, rfl, ?_⟩
  obtain ⟨-, disp, -, hall, -, -⟩ :=
    c6_getGitHubURL ⟨"japanese", some "artifacts", "all", "main"⟩ "artifacts"
      (by decide) rfl
  rw [hall rfl]
  decide

/-- Claim C7: whenever the upstream fetch reports a non-success status,
the outbound response is exactly status 404 with the plain-text body
`Category name not found` when `id = "all"` and `File not found`
otherwise, with no content-type header and no help payload. -/
theorem c7_upstream_not_found (w : World) (req : RequestModel)
    (res : ParsedURL)
    (hroot : ¬(req.url.pathname = "/".data ∨ req.url.pathname = "".data))
    (hok : parseURL req.url = .ok res)
    (hfetch : w.fetch (getGitHubURL res) = .notOk) :
    handleFetch w req = .ok ⟨404, none,
      if res.id = "all" then "Category name not found"
      else "File not found"⟩ := by
  by_cases hall : res.id = "all"
  · simp [handleFetch, hroot, hok, hfetch, hall]
  · simp [handleFetch, hroot, hok, hfetch, hall]

/-- Witness for C7 at `/artifacts/pilot` against an upstream that
reports not-found: the body is exactly `File not found`. -/
theorem c7_upstream_not_found_witness :
    ¬("/artifacts/pilot".data = "/".data ∨ "/artifacts/pilot".data = "".data) ∧
    parseURL ⟨"/artifacts/pilot".data, []⟩ =
      .ok ⟨"english", some "artifacts", "pilot", "main"⟩ ∧
    notOkWorld.fetch
      (getGitHubURL ⟨"english", some "artifacts", "pilot", "main"⟩) = .notOk ∧
    handleFetch notOkWorld ⟨⟨"/artifacts/pilot".data, []⟩, none⟩ =
      .ok ⟨404, none,
        if ("pilot" : String) = "all" then "Category name not found"
        else "File not found"⟩ :=
  ⟨by decide, by decide, rfl,
    c7_upstream_not_found notOkWorld ⟨⟨"/artifacts/pilot".data, []⟩, none⟩
      ⟨"english", some "artifacts", "pilot", "main"⟩ (by decide) (by decide)
      rfl⟩

/-- Claim C8: for a successful non-bulk upstream fetch whose body
parses as the JSON document `D`, the outbound response has status 200,
the JSON content-type header, and body `JSON.stringify(D, null, 2)`;
parsing that body back recovers a document structurally equal to
`D`. -/
theorem c8_json_roundtrip (w : World) (req : RequestModel) (res : ParsedURL)
    (b : String) (D : Json)
    (hroot : ¬(req.url.pathname = "/".data ∨ req.url.pathname = "".data))
    (hok : parseURL req.url = .ok res) (hall : res.id ≠ "all")
    (hfetch : w.fetch (getGitHubURL res) = .okBody b)
    (hjson : jsonParse b = some D) :
    handleFetch w req =
      .ok ⟨200, some "application/json", jsonStringify2 D⟩ ∧
    jsonParse (jsonStringify2 D) = some D := by
  refine ⟨?_, jsonParse_stringify2 D⟩
  simp [handleFetch, hroot, hok, hall, hfetch, hjson]

/-- Witness for C8 at `/artifacts/pilot` against an upstream returning
the JSON text `[1, 2]`. -/
theorem c8_json_roundtrip_witness :
    ¬("/artifacts/pilot".data = "/".data ∨ "/artifacts/pilot".data = "".data) ∧
    parseURL ⟨"/artifacts/pilot".data, []⟩ =
      .ok ⟨"english", some "artifacts", "pilot", "main"⟩ ∧
    ("pilot" : String) ≠ "all" ∧
    okJsonWorld.fetch
      (getGitHubURL ⟨"english", some "artifacts", "pilot", "main"⟩) =
      .okBody "[1, 2]" ∧
    jsonParse "[1, 2]" = some (Json.arr [Json.num 1, Json.num 2]) ∧
    (handleFetch okJsonWorld ⟨⟨"/artifacts/pilot".data, []⟩, none⟩ =
        .ok ⟨200, some "application/json",
          jsonStringify2 (Json.arr [Json.num 1, Json.num 2])⟩ ∧
      jsonParse (jsonStringify2 (Json.arr [Json.num 1, Json.num 2])) =
        some (Json.arr [Json.num 1, Json.num 2])) :=
  ⟨by decide, by decide, by decide, rfl, rfl,
    c8_json_roundtrip okJsonWorld ⟨⟨"/artifacts/pilot".data, []⟩, none⟩
      ⟨"english", some "artifacts", "pilot", "main"⟩ "[1, 2]"
      (Json.arr [Json.num 1, Json.num 2]) (by decide) (by decide) (by decide)
      rfl rfl⟩

/-- Claim C9: when the query string carries a `lang` parameter — even
an empty or non-canonicalizable one — the `language` parameter is never
consulted (removing every `language` pair leaves resolution unchanged),
and when that `lang` value does not canonicalize, no override occurs:
the resolved language is the path-derived (or default `english`)
language. -/
theorem c9_lang_shadows_language (p : List Char)
    (q : List (String × String)) (v : String)
    (hl : getParam q "lang" = some v) :
    parseURL ⟨p, q⟩ = parseURL ⟨p, q.filter (fun kv => kv.1 ≠ "language")⟩ ∧
    (getLanguage (some v) = none → ∀ res, parseURL ⟨p, q⟩ = .ok res →
      res.language = (getLanguage ((pathSegs p).get? 0)).getD "english") := by
  constructor
  · simp only [parseURL]
    exact parseCore_lang_short _ _ _ q _ v hl
      (by rw [getParam_filter q "lang" "language" (by decide), hl])
      ((getParam_filter q "branch" "language" (by decide)).symm)
  · intro hnone res hok
    rcases hfirst : (pathSegs p).get? 0 with _ | first
    · simp only [parseURL, hfirst, parseCore] at hok
      exact absurd hok (by simp)
    · simp only [parseURL, hfirst] at hok
      obtain ⟨-, hlang, -, -⟩ := parseCore_ok_fields hok
      rw [hlang, show orElseJS (getParam q "lang") (getParam q "language") =
          some v from by rw [hl]; rfl, hnone]
      rfl

/-- Witness for C9 at `/artifacts?lang=nonsense&language=japanese`: the
non-canonicalizable `lang` value shadows `language`, and the resolved
language stays the default `english`. -/
theorem c9_lang_shadows_language_witness :
    getParam [("lang", "nonsense"), ("language", "japanese")] "lang" =
      some "nonsense" ∧
    getLanguage (some "nonsense") = none ∧
    parseURL ⟨"/artifacts".data,
        [("lang", "nonsense"), ("language", "japanese")]⟩ =
      parseURL ⟨"/artifacts".data,
        ([("lang", "nonsense"), ("language", "japanese")].filter
          (fun kv => kv.1 ≠ "language"))⟩ ∧
    parseURL ⟨"/artifacts".data,
        [("lang", "nonsense"), ("language", "japanese")]⟩ =
      .ok ⟨"english", some "artifacts", "index", "main"⟩ ∧
    (⟨"english", some "artifacts", "index", "main"⟩ : ParsedURL).language =
      (getLanguage ((pathSegs "/artifacts".data).get? 0)).getD "english" :=
  ⟨rfl, by decide,
    (c9_lang_shadows_language "/artifacts".data
      [("lang", "nonsense"), ("language", "japanese")] "nonsense" rfl).1,
    by decide,
    (c9_lang_shadows_language "/artifacts".data
      [("lang", "nonsense"), ("language", "japanese")] "nonsense" rfl).2
      (by decide) ⟨"english", some "artifacts", "index", "main"⟩ (by decide)⟩

/-- Claim C10: resolution discards empty path segments and ignores
everything after the third non-empty segment: a trailing slash, doubled
slashes, or (when three segments are present) any appended further
segments leave the `ParsedRequest` unchanged. -/
theorem c10_segment_normalization (p : List Char)
    (q : List (String × String)) (_h1 : pathSegs p ≠ []) :
    parseURL ⟨p ++ "/".data, q⟩ = parseURL ⟨p, q⟩ ∧
    parseURL ⟨doubleSlashes p, q⟩ = parseURL ⟨p, q⟩ ∧
    (3 ≤ (pathSegs p).length → ∀ extra : List Char,
      parseURL ⟨p ++ '/' :: extra, q⟩ = parseURL ⟨p, q⟩) := by
  refine ⟨?_, parseURL_pathSegs_congr _ _ q (pathSegs_doubleSlashes p), ?_⟩
  · apply parseURL_pathSegs_congr
    rw [show p ++ "/".data = p ++ '/' :: [] from rfl, pathSegs_append]
    simp [show pathSegs [] = [] from rfl]
  · intro h3 extra
    have g0 : (pathSegs p ++ pathSegs extra).get? 0 = (pathSegs p).get? 0 :=
      List.get?_append (by omega)
    have g1 : (pathSegs p ++ pathSegs extra).get? 1 = (pathSegs p).get? 1 :=
      List.get?_append (by omega)
    have g2 : (pathSegs p ++ pathSegs extra).get? 2 = (pathSegs p).get? 2 :=
      List.get?_append (by omega)
    simp only [parseURL, pathSegs_append, g0, g1, g2]

/-- Witness for C10 at `/a/b/c`: trailing slash, doubled slashes and a
fourth segment all resolve identically. -/
theorem c10_segment_normalization_witness :
    pathSegs "/a/b/c".data ≠ [] ∧ 3 ≤ (pathSegs "/a/b/c".data).length ∧
    parseURL ⟨"/a/b/c".data ++ "/".data, []⟩ =
      parseURL ⟨"/a/b/c".data, []⟩ ∧
    parseURL ⟨doubleSlashes "/a/b/c".data, []⟩ =
      parseURL ⟨"/a/b/c".data, []⟩ ∧
    parseURL ⟨"/a/b/c".data ++ '/' :: "d".data, []⟩ =
      parseURL ⟨"/a/b/c".data, []⟩ :=
  ⟨by decide, by decide,
    (c10_segment_normalization "/a/b/c".data [] (by decide)).1,
    (c10_segment_normalization "/a/b/c".data [] (by decide)).2.1,
    (c10_segment_normalization "/a/b/c".data [] (by decide)).2.2 (by decide)
      "d".data⟩


end GenshinDBServe
